import Mathlib

/-!
Verification of the tare-adjusted aggregation and reporting engine of the
shrimp-harvest tracking application.

Numbers are modelled over `ℚ` (JS `number` arithmetic on the magnitudes the
app handles is exact for the algebraic identities considered here); machine
`crateCount` values over `ℤ` so that the JS `|| 1` falsy-zero resolution is
the explicit `= 0` test.  Timestamps, tanks and ids stay `String`s.
-/

namespace Harvest

/-- `HarvestEntry` from `types.ts`: one measurement record. -/
structure HarvestEntry where
  id : String
  tank : String
  count : ℚ
  weight : ℚ
  crateWeight : ℚ
  crateCount : ℤ
  team : String
  timestamp : String
  synced : Bool
  deriving Repr, DecidableEq

/-- `TankSummary` from `types.ts`: the per-container accumulator. -/
structure TankSummary where
  tank : String
  entryCount : ℕ
  patluCount : ℕ
  singlesCount : ℕ
  crateCount : ℤ
  totalWeight : ℚ
  absoluteWeight : ℚ
  shrimpCount : ℚ
  deriving Repr, DecidableEq

/-- The hard-coded default tare weight `1.8` used by the aggregation code
(`entry.crateWeight || 1.8`). -/
def defaultCrateWeight : ℚ := 1.8

/-- `entry.crateCount || 1`: a zero crate count is treated as one crate
(JS `0` is falsy). -/
def resolvedCrateCount (e : HarvestEntry) : ℤ :=
  if e.crateCount = 0 then 1 else e.crateCount

/-- `entry.crateWeight || 1.8`: a zero tare weight falls back to the default. -/
def effectiveCrateWeight (e : HarvestEntry) : ℚ :=
  if e.crateWeight = 0 then defaultCrateWeight else e.crateWeight

/-- The unclamped per-entry net term
`entry.weight - entryCrateCount * effectiveCrateWeight`
added to `absoluteWeight` by the Aggregation Engine (it may be negative). -/
def netTerm (e : HarvestEntry) : ℚ :=
  e.weight - (resolvedCrateCount e : ℚ) * effectiveCrateWeight e

/-- The zero accumulator created when a tank is first seen
(`map.get(entry.tank) || { ... }` in `AbstractScreen.tsx`). -/
def initSummary (e : HarvestEntry) : TankSummary :=
  { tank := e.tank
    entryCount := 0
    patluCount := 0
    singlesCount := 0
    crateCount := 0
    totalWeight := 0
    absoluteWeight := 0
    shrimpCount := e.count }

/-- The per-entry mutation of the accumulator, `AbstractScreen.tsx` lines
36–46 (identical in `RevenueScreen.tsx` and `HistoryScreen.tsx`). -/
def updateSummary (s : TankSummary) (e : HarvestEntry) : TankSummary :=
  { s with
    entryCount := s.entryCount + 1
    patluCount := if resolvedCrateCount e = 2 then s.patluCount + 1 else s.patluCount
    singlesCount :=
      if resolvedCrateCount e = 2 then s.singlesCount
      else if resolvedCrateCount e = 1 then s.singlesCount + 1 else s.singlesCount
    crateCount := s.crateCount + resolvedCrateCount e
    totalWeight := s.totalWeight + e.weight
    absoluteWeight := s.absoluteWeight + netTerm e
    shrimpCount := e.count }

/-- One `entries.forEach` iteration over the insertion-ordered map of
accumulators (a JS `Map` keeps first-insertion order; `map.set` on an
existing key updates in place, on a new key appends). -/
def step (acc : List TankSummary) (e : HarvestEntry) : List TankSummary :=
  if acc.any (fun s => s.tank == e.tank) then
    acc.map (fun s => if s.tank == e.tank then updateSummary s e else s)
  else
    acc ++ [updateSummary (initSummary e) e]

/-- The accumulator map after the `entries.forEach` loop, in insertion order. -/
def summariesUnsorted (entries : List HarvestEntry) : List TankSummary :=
  entries.foldl step []

/-- Stable insertion sort, modelling JS `Array.prototype.sort` with a
comparator: `le a b` means `a` may be placed before `b`. -/
def insertLe {α : Type} (le : α → α → Bool) (a : α) : List α → List α
  | [] => [a]
  | b :: bs => if le a b then a :: b :: bs else b :: insertLe le a bs

/-- Sort a list with comparator `le` (stable, like a modern JS sort). -/
def sortLe {α : Type} (le : α → α → Bool) (l : List α) : List α :=
  l.foldr (insertLe le) []

/-- Lexicographic `≤` on character lists (the order underlying
`localeCompare` for the plain ASCII names this app uses). -/
def leChars : List Char → List Char → Bool
  | [], _ => true
  | _ :: _, [] => false
  | a :: as, b :: bs => if a = b then leChars as bs else decide (a < b)

/-- String order used to model `localeCompare`-based sorts. -/
def strLe (a b : String) : Bool := leChars a.data b.data

/-- The final sort `(a, b) => a.tank.localeCompare(b.tank)`, modelled as
the string order on tank names. -/
def sortSummaries (l : List TankSummary) : List TankSummary :=
  sortLe (fun a b => strLe a.tank b.tank) l

/-- The Aggregation Engine: `summaries` from `AbstractScreen.tsx` lines
21–52 (the same code appears in `RevenueScreen.tsx` and in
`HistoryScreen.tsx`'s per-date `dailyAbstract`). -/
def summaries (entries : List HarvestEntry) : List TankSummary :=
  sortSummaries (summariesUnsorted entries)

/-- `totalAbsolute` (`AbstractScreen.tsx` line 54). -/
def totalAbsolute (entries : List HarvestEntry) : ℚ :=
  ((summaries entries).map (fun s => s.absoluteWeight)).sum

/-- `totalGross` (`AbstractScreen.tsx` line 55). -/
def totalGross (entries : List HarvestEntry) : ℚ :=
  ((summaries entries).map (fun s => s.totalWeight)).sum

/-- `totalCrates` (`AbstractScreen.tsx` line 56). -/
def totalCrates (entries : List HarvestEntry) : ℤ :=
  ((summaries entries).map (fun s => s.crateCount)).sum

/-- `netEfficiency` (`AbstractScreen.tsx` line 60):
`totalGross > 0 ? (totalAbsolute / totalGross) * 100 : 0`. -/
def netEfficiency (entries : List HarvestEntry) : ℚ :=
  if totalGross entries > 0 then (totalAbsolute entries / totalGross entries) * 100 else 0

/-- Prices arrive as a string map parsed with `parseFloat(...) || 0`;
we model the parsed lookup: `none` stands for an absent or unparsable
price, resolved to `0`. -/
def parsedPrice (prices : String → Option ℚ) (tank : String) : ℚ :=
  (prices tank).getD 0

/-- `totalRevenue` (`AbstractScreen.tsx` lines 62–65). -/
def totalRevenue (prices : String → Option ℚ) (entries : List HarvestEntry) : ℚ :=
  ((summaries entries).map (fun s => s.absoluteWeight * parsedPrice prices s.tank)).sum

/-- Total number of entries over the engine's summaries (the engine's
`entryCount` data, summed; the PDF's "Total Collection Volume" analogue). -/
def engineUnitCount (entries : List HarvestEntry) : ℕ :=
  ((summaries entries).map (fun s => s.entryCount)).sum

/-! ### The PDF export's own aggregation (`handleDownloadPDF`)

`SyncManager.tsx` lines 137–151 and its variant (`part_001` lines 75–89)
rebuild a tank map themselves.  Unlike the engine they clamp the per-entry
net term at zero (`Math.max(0, e.weight - tare)`), count every non-2-crate
entry as singles (`if (cCount === 2) patluCount++; else singlesCount++;`)
and never overwrite `shrimpCount` after creating the accumulator. -/

/-- The PDF export's per-entry accumulator mutation. -/
def pdfUpdateSummary (s : TankSummary) (e : HarvestEntry) : TankSummary :=
  { s with
    entryCount := s.entryCount + 1
    patluCount := if resolvedCrateCount e = 2 then s.patluCount + 1 else s.patluCount
    singlesCount := if resolvedCrateCount e = 2 then s.singlesCount else s.singlesCount + 1
    crateCount := s.crateCount + resolvedCrateCount e
    totalWeight := s.totalWeight + e.weight
    absoluteWeight := s.absoluteWeight + max 0 (netTerm e) }

/-- One `entries.forEach` iteration of the PDF export's tank map. -/
def pdfStep (acc : List TankSummary) (e : HarvestEntry) : List TankSummary :=
  if acc.any (fun s => s.tank == e.tank) then
    acc.map (fun s => if s.tank == e.tank then pdfUpdateSummary s e else s)
  else
    acc ++ [pdfUpdateSummary (initSummary e) e]

/-- The PDF export's tank map after its `forEach` loop, in insertion order. -/
def pdfSummariesUnsorted (entries : List HarvestEntry) : List TankSummary :=
  entries.foldl pdfStep []

/-- The PDF export's sorted summary list (`Array.from(tankMap.values()).sort`). -/
def pdfSummaries (entries : List HarvestEntry) : List TankSummary :=
  sortSummaries (pdfSummariesUnsorted entries)

/-- PDF metrics row "Total Harvest Weight (Gross)". -/
def pdfTotalGross (entries : List HarvestEntry) : ℚ :=
  ((pdfSummaries entries).map (fun s => s.totalWeight)).sum

/-- PDF metrics row "Total Yield (Net)". -/
def pdfTotalNet (entries : List HarvestEntry) : ℚ :=
  ((pdfSummaries entries).map (fun s => s.absoluteWeight)).sum

/-- PDF metrics row "Estimated Cash Value". -/
def pdfTotalRevenue (prices : String → Option ℚ) (entries : List HarvestEntry) : ℚ :=
  ((pdfSummaries entries).map (fun s => s.absoluteWeight * parsedPrice prices s.tank)).sum

/-- PDF metrics row "Efficiency Rating": `(totalNet/totalGross)*100`,
with no zero-gross guard. -/
def pdfEfficiency (entries : List HarvestEntry) : ℚ :=
  (pdfTotalNet entries / pdfTotalGross entries) * 100

/-- PDF metrics row "Total Collection Volume". -/
def pdfUnitCount (entries : List HarvestEntry) : ℕ :=
  ((pdfSummaries entries).map (fun s => s.entryCount)).sum

/-- The fields of a `TankSummary` other than `shrimpCount`, used to compare
the engine's and the PDF export's aggregations. -/
def coreFields (s : TankSummary) : String × ℕ × ℕ × ℕ × ℤ × ℚ × ℚ :=
  (s.tank, s.entryCount, s.patluCount, s.singlesCount, s.crateCount,
    s.totalWeight, s.absoluteWeight)

/-! ### Entry Store (`db.ts` / its `part_004` variant), modelled as the
keyed collection of records it holds. -/

/-- `store.get(id)`: the record stored under an id, if any. -/
def getEntry (store : List HarvestEntry) (i : String) : Option HarvestEntry :=
  store.find? (fun e => e.id == i)

/-- `store.put(entry)`: insert or overwrite by `id`. -/
def putEntry (store : List HarvestEntry) (x : HarvestEntry) : List HarvestEntry :=
  if store.any (fun e => e.id == x.id) then
    store.map (fun e => if e.id == x.id then x else e)
  else
    store ++ [x]

/-- `markSynced(ids)` (`part_004` lines 131–148, `db.ts` `markEntriesSynced`
lines 169–191): for each id, get the record, and only when it exists set
`synced := true` and put it back; missing ids are skipped. -/
def markSynced (ids : List String) (store : List HarvestEntry) : List HarvestEntry :=
  ids.foldl (fun st i =>
    match getEntry st i with
    | none => st
    | some e => putEntry st { e with synced := true }) store

/-- `ids.forEach(id => store.delete(id))`: batch delete by identifier. -/
def deleteEntriesStore (store : List HarvestEntry) (ids : List String) : List HarvestEntry :=
  store.filter (fun e => !(ids.contains e.id))

/-! ### Add path (`CrateEntry.tsx` `handleSave` → `App.tsx` `handleAddEntry`) -/

/-- `HarvestSettings` from `types.ts`. -/
structure HarvestSettings where
  activeTank : String
  shrimpCount : ℚ
  tankCounts : List (String × ℚ)
  tankPrices : List (String × String)
  crateWeight : ℚ
  teamName : String
  deriving Repr, DecidableEq

/-- The application state the add path touches: the in-memory entry list,
the durable store, and a count of `saveEntry` invocations. -/
structure AppState where
  entries : List HarvestEntry
  store : List HarvestEntry
  saveCalls : ℕ
  deriving Repr, DecidableEq

/-- `App.tsx` `handleAddEntry` (lines 125–145): build the new record from
the settings, persist it with `saveEntry`, and prepend it to the list.
The fresh id and the current timestamp are passed in. -/
def handleAddEntry (settings : HarvestSettings) (newId now : String)
    (weight : ℚ) (crateCount : ℤ) (st : AppState) : AppState :=
  let newEntry : HarvestEntry :=
    { id := newId
      tank := settings.activeTank
      count := settings.shrimpCount
      weight := weight
      crateWeight := settings.crateWeight
      crateCount := crateCount
      team := settings.teamName
      timestamp := now
      synced := false }
  { entries := newEntry :: st.entries
    store := putEntry st.store newEntry
    saveCalls := st.saveCalls + 1 }

/-- `CrateEntry.tsx` `handleSave` (lines 38–46): parse the weight input
(`none` models `parseFloat` returning `NaN`) and submit only when the
parsed value is a number greater than zero. -/
def handleSave (settings : HarvestSettings) (newId now : String)
    (weightInput : Option ℚ) (crateCount : ℤ) (st : AppState) : AppState :=
  match weightInput with
  | none => st
  | some w => if w > 0 then handleAddEntry settings newId now w crateCount st else st

/-! ### Date bucketing and date deletion -/

/-- JS `String.prototype.startsWith`, on character lists. -/
def startsWithChars : List Char → List Char → Bool
  | _, [] => true
  | [], _ :: _ => false
  | a :: as, b :: bs => a == b && startsWithChars as bs

/-- `e.timestamp.startsWith(date)` as used by `handleDeleteHistoryDate`. -/
def tsStartsWith (s p : String) : Bool := startsWithChars s.data p.data

/-- `timestamp.split('T')[0]`: the date part before the time separator. -/
def dateOf (ts : String) : String :=
  String.mk (ts.data.takeWhile (fun c => c != 'T'))

/-- `App.tsx` `handleDeleteHistoryDate` (lines 165–178): collect the ids of
the entries whose timestamp starts with the date, and batch-delete them
(no store call when the list is empty); the entry list is then reloaded
from the store, so the result is the remaining store contents. -/
def handleDeleteHistoryDate (date : String) (entries : List HarvestEntry) :
    List HarvestEntry :=
  let idsToDelete := (entries.filter (fun e => tsStartsWith e.timestamp date)).map
    (fun e => e.id)
  if idsToDelete.isEmpty then entries else deleteEntriesStore entries idsToDelete

/-- One iteration of `HistoryScreen.tsx`'s `groupedByDate` accumulation
(lines 29–33): push the entry onto its date bucket, creating the bucket
on first sight (JS object keys keep insertion order). -/
def addToDateGroup (gs : List (String × List HarvestEntry)) (e : HarvestEntry) :
    List (String × List HarvestEntry) :=
  if gs.any (fun p => p.1 == dateOf e.timestamp) then
    gs.map (fun p => if p.1 == dateOf e.timestamp then (p.1, p.2 ++ [e]) else p)
  else
    gs ++ [(dateOf e.timestamp, [e])]

/-- `HistoryScreen.tsx` `groupedByDate` (lines 27–35): bucket entries by
date prefix, then list buckets in descending date order. -/
def groupedByDate (entries : List HarvestEntry) : List (String × List HarvestEntry) :=
  sortLe (fun a b => strLe b.1 a.1) (entries.foldl addToDateGroup [])

/-! ### Serial numbering (`LogScreen` / `HistoryScreen`)

`new Date(ts).getTime()` is abstracted as a numeric key on the timestamp
string, passed as a parameter `key`. -/

/-- The log view's per-tank group sorted descending by timestamp
(`part_002` line 41, comparator `getTime(b) - getTime(a)`, stable). -/
def sortGroupDesc (key : String → ℤ) (g : List HarvestEntry) : List HarvestEntry :=
  sortLe (fun a b => key b.timestamp ≤ key a.timestamp) g

/-- A group sorted ascending by timestamp (`HistoryScreen.tsx` line 149,
comparator `getTime(a) - getTime(b)`, stable). -/
def sortGroupAsc (key : String → ℤ) (g : List HarvestEntry) : List HarvestEntry :=
  sortLe (fun a b => key a.timestamp ≤ key b.timestamp) g

/-- The log view's serial numbers (`part_002` lines 181–183): over the
descending-sorted group, row `idx` is labelled `totalInTank - idx`;
recorded as an id-keyed association list. -/
def logSerialAssoc (key : String → ℤ) (g : List HarvestEntry) : List (String × ℕ) :=
  (sortGroupDesc key g).enum.map (fun p => (p.2.id, g.length - p.1))

/-- The `tankEntryCounters` fold of `HistoryScreen.tsx` lines 150–154:
walk the ascending-sorted list, incrementing a per-tank counter and
recording `serialMap.set(e.id, counter)`. -/
def histSerialFold : List HarvestEntry → (String → ℕ) → List (String × ℕ)
  | [], _ => []
  | e :: rest, cnt =>
    (e.id, cnt e.tank + 1) ::
      histSerialFold rest (fun t => if t == e.tank then cnt e.tank + 1 else cnt t)

/-- The history view's serial map (`HistoryScreen.tsx` lines 148–154). -/
def historySerialAssoc (key : String → ℤ) (g : List HarvestEntry) : List (String × ℕ) :=
  histSerialFold (sortGroupAsc key g) (fun _ => 0)

/-! ### `getAllEntries` failure behaviour (`db.ts` vs its `part_004` variant) -/

/-- The environment of one `getAllEntries` call: the outcome of opening the
database (`getDB()`, carrying the store contents on success) and an
optional `getAll`-request error. -/
structure DBEnv where
  openRes : Except String (List HarvestEntry)
  reqErr : Option String

/-- The descending timestamp sort `db.ts` applies on success
(`b.timestamp.localeCompare(a.timestamp)`). -/
def sortEntriesTimestampDesc (l : List HarvestEntry) : List HarvestEntry :=
  sortLe (fun a b => strLe b.timestamp a.timestamp) l

/-- `db.ts` `getAllEntries` (lines 94–113): `await getDB()` is outside any
handler, so a failed open rejects; a failed request rejects; success
resolves with the store sorted descending by timestamp. -/
def getAllEntriesDbTs (env : DBEnv) : Except String (List HarvestEntry) :=
  match env.openRes with
  | .error msg => .error msg
  | .ok store =>
    match env.reqErr with
    | some msg => .error msg
    | none => .ok (sortEntriesTimestampDesc store)

/-- The `part_004` `getAllEntries` (lines 117–129): the `try/catch` around
`await getDB()` swallows a failed open and resolves with `[]`; the inner
request promise is returned un-awaited, so a request error still rejects. -/
def getAllEntriesPart4 (env : DBEnv) : Except String (List HarvestEntry) :=
  match env.openRes with
  | .error _ => .ok []
  | .ok store =>
    match env.reqErr with
    | some msg => .error msg
    | none => .ok store

/-! ### Concrete sample records used by witnesses -/

/-- A single-crate entry whose net term is negative: `1 - 1*2 = -1`. -/
def sampleSingle : HarvestEntry :=
  { id := "a", tank := "T", count := 30, weight := 1, crateWeight := 2
    crateCount := 1, team := "A", timestamp := "2025-03-01T08:00", synced := false }

/-- A two-crate entry with net term `10 - 2*2 = 6`. -/
def samplePatlu : HarvestEntry :=
  { id := "b", tank := "T", count := 40, weight := 10, crateWeight := 2
    crateCount := 2, team := "A", timestamp := "2025-03-01T09:00", synced := false }

/-- An entry with a negative gross weight (structurally allowed: the edit
and pull paths do not validate weights). -/
def sampleNeg : HarvestEntry :=
  { id := "n", tank := "N", count := 30, weight := -2, crateWeight := 1
    crateCount := 1, team := "A", timestamp := "2025-03-01T07:00", synced := false }

/-- A concrete timestamp key for witnesses: the sum of the character
codes (monotone stand-in for `Date.getTime` on the sample timestamps, and
like `getTime` it maps equal timestamp strings to equal keys). -/
def sampleKey (s : String) : ℤ :=
  (s.data.map (fun c => (c.toNat : ℤ))).sum

/-- Two entries of one tank sharing the same timestamp (distinct ids). -/
def sampleDupA : HarvestEntry :=
  { id := "a", tank := "T", count := 30, weight := 4, crateWeight := 2
    crateCount := 1, team := "A", timestamp := "2025-03-01T08:00", synced := false }

/-- Second entry with the same timestamp as `sampleDupA`. -/
def sampleDupB : HarvestEntry :=
  { id := "b", tank := "T", count := 30, weight := 6, crateWeight := 2
    crateCount := 2, team := "A", timestamp := "2025-03-01T08:00", synced := false }

/-! ## Generic facts about the stable insertion sort -/

theorem insertLe_perm {α : Type} (le : α → α → Bool) (a : α) (l : List α) :
    (insertLe le a l).Perm (a :: l) := by
  induction l with
  | nil => simp [insertLe]
  | cons b bs ih =>
    simp only [insertLe]
    by_cases hb : le a b
    · simp [hb]
    · simp only [hb, if_false]
      exact ((ih.cons b).trans (List.Perm.swap a b bs))

theorem sortLe_perm {α : Type} (le : α → α → Bool) (l : List α) :
    (sortLe le l).Perm l := by
  induction l with
  | nil => simp [sortLe]
  | cons a as ih =>
    simpa [sortLe] using (insertLe_perm le a (sortLe le as)).trans (ih.cons a)

theorem mem_sortLe {α : Type} (le : α → α → Bool) (l : List α) (a : α) :
    a ∈ sortLe le l ↔ a ∈ l :=
  (sortLe_perm le l).mem_iff

/-! ## The engine invariant: each accumulator summarizes exactly its
container's slice of the processed entries -/

/-- `s` holds exactly the aggregates of the entries of its tank in `done`. -/
def SummarizesAt (done : List HarvestEntry) (s : TankSummary) : Prop :=
  s.entryCount = (done.filter (fun e => e.tank == s.tank)).length ∧
  s.patluCount =
    (done.filter (fun e => e.tank == s.tank && resolvedCrateCount e == 2)).length ∧
  s.singlesCount =
    (done.filter (fun e => e.tank == s.tank && resolvedCrateCount e == 1)).length ∧
  s.crateCount = ((done.filter (fun e => e.tank == s.tank)).map resolvedCrateCount).sum ∧
  s.totalWeight = ((done.filter (fun e => e.tank == s.tank)).map (fun e => e.weight)).sum ∧
  s.absoluteWeight = ((done.filter (fun e => e.tank == s.tank)).map netTerm).sum

/-- Loop invariant of the `entries.forEach` aggregation. -/
def EngineInv (done : List HarvestEntry) (acc : List TankSummary) : Prop :=
  (∀ s ∈ acc, SummarizesAt done s) ∧
  (acc.map (fun s => s.tank)).Nodup ∧
  (∀ e ∈ done, ∃ s ∈ acc, s.tank = e.tank)

theorem updateSummary_tank (s : TankSummary) (e : HarvestEntry) :
    (updateSummary s e).tank = s.tank := rfl

theorem summarizesAt_append_match {done : List HarvestEntry} {s : TankSummary}
    {e : HarvestEntry} (h : s.tank = e.tank) (hs : SummarizesAt done s) :
    SummarizesAt (done ++ [e]) (updateSummary s e) := by
  obtain ⟨h1, h2, h3, h4, h5, h6⟩ := hs
  have hpe : (e.tank == s.tank) = true := by simp [h]
  refine ⟨?_, ?_, ?_, ?_, ?_, ?_⟩ <;>
    simp only [updateSummary, updateSummary_tank, List.filter_append] <;>
    simp [List.filter_cons, hpe]
  · omega
  · rcases eq_or_ne (resolvedCrateCount e) 2 with hr | hr <;> simp [hr, h2]
  · rcases eq_or_ne (resolvedCrateCount e) 2 with hr | hr
    · simp [hr, h3]
    · rcases eq_or_ne (resolvedCrateCount e) 1 with hr1 | hr1 <;> simp [hr, hr1, h3]
  · simp [h4]
  · simp [h5]
  · simp [h6, netTerm]

theorem summarizesAt_append_other {done : List HarvestEntry} {s : TankSummary}
    {e : HarvestEntry} (h : s.tank ≠ e.tank) (hs : SummarizesAt done s) :
    SummarizesAt (done ++ [e]) s := by
  obtain ⟨h1, h2, h3, h4, h5, h6⟩ := hs
  have hpe : (e.tank == s.tank) = false := by
    simp only [beq_eq_false_iff_ne, ne_eq]
    exact fun hh => h hh.symm
  refine ⟨?_, ?_, ?_, ?_, ?_, ?_⟩ <;>
    simp only [List.filter_append] <;>
    simp [List.filter_cons, hpe, h1, h2, h3, h4, h5, h6]

theorem summarizesAt_init {done : List HarvestEntry} {e : HarvestEntry}
    (h : ∀ d ∈ done, d.tank ≠ e.tank) : SummarizesAt done (initSummary e) := by
  have hnil : ∀ (q : HarvestEntry → Bool),
      done.filter (fun d => d.tank == e.tank && q d) = [] := by
    intro q
    rw [List.filter_eq_nil_iff]
    intro d hd
    simp [h d hd]
  have hnil' : done.filter (fun d => d.tank == e.tank) = [] := by
    rw [List.filter_eq_nil_iff]
    intro d hd
    simp [h d hd]
  refine ⟨?_, ?_, ?_, ?_, ?_, ?_⟩ <;>
    simp [initSummary, hnil', hnil fun d => resolvedCrateCount d == 2,
      hnil fun d => resolvedCrateCount d == 1]

theorem engineInv_step {done : List HarvestEntry} {acc : List TankSummary}
    (h : EngineInv done acc) (e : HarvestEntry) :
    EngineInv (done ++ [e]) (step acc e) := by
  obtain ⟨h1, h2, h3⟩ := h
  by_cases hany : acc.any (fun s => s.tank == e.tank)
  · rw [step, if_pos hany]
    refine ⟨?_, ?_, ?_⟩
    · intro s' hs'
      rw [List.mem_map] at hs'
      obtain ⟨s, hs, rfl⟩ := hs'
      by_cases ht : s.tank = e.tank
      · simpa [ht] using summarizesAt_append_match ht (h1 s hs)
      · simpa [ht] using summarizesAt_append_other ht (h1 s hs)
    · have : (acc.map fun s => if s.tank == e.tank then updateSummary s e else s).map
          (fun s => s.tank) = acc.map (fun s => s.tank) := by
        rw [List.map_map]
        refine List.map_congr_left ?_
        intro s _
        by_cases ht : s.tank = e.tank <;> simp [ht, updateSummary_tank]
      rw [this]
      exact h2
    · intro d hd
      rcases List.mem_append.1 hd with hdone | heq
      · obtain ⟨s, hs, htank⟩ := h3 d hdone
        refine ⟨if s.tank == e.tank then updateSummary s e else s,
          List.mem_map_of_mem _ hs, ?_⟩
        by_cases ht : s.tank = e.tank
        · rw [if_pos (by simp [ht]), updateSummary_tank]
          exact htank
        · rw [if_neg (by simp [ht])]
          exact htank
      · rw [List.mem_singleton] at heq
        rw [List.any_eq_true] at hany
        obtain ⟨s, hs, hbeq⟩ := hany
        rw [beq_iff_eq] at hbeq
        refine ⟨if s.tank == e.tank then updateSummary s e else s,
          List.mem_map_of_mem _ hs, ?_⟩
        rw [if_pos (by simp [hbeq] : (s.tank == e.tank) = true), updateSummary_tank,
          hbeq, heq]
  · rw [step, if_neg hany]
    have hnone : ∀ s ∈ acc, s.tank ≠ e.tank := by
      intro s hs hcontra
      exact hany (List.any_eq_true.2 ⟨s, hs, by simp [hcontra]⟩)
    have hdone : ∀ d ∈ done, d.tank ≠ e.tank := by
      intro d hd hcontra
      obtain ⟨s, hs, htank⟩ := h3 d hd
      exact hnone s hs (htank.trans hcontra)
    have hinit_tank : (updateSummary (initSummary e) e).tank = e.tank := rfl
    refine ⟨?_, ?_, ?_⟩
    · intro s' hs'
      rcases List.mem_append.1 hs' with hmem | heq
      · exact summarizesAt_append_other (hnone s' hmem) (h1 s' hmem)
      · rw [List.mem_singleton] at heq
        subst heq
        exact summarizesAt_append_match rfl (summarizesAt_init hdone)
    · rw [List.map_append]
      simp only [List.map_cons, List.map_nil, hinit_tank]
      rw [List.nodup_append]
      refine ⟨h2, List.nodup_singleton _, ?_⟩
      intro t ht
      rw [List.mem_map] at ht
      obtain ⟨s, hs, rfl⟩ := ht
      simp [hnone s hs]
    · intro d hd
      rcases List.mem_append.1 hd with hdone' | heq
      · obtain ⟨s, hs, htank⟩ := h3 d hdone'
        exact ⟨s, List.mem_append_left _ hs, htank⟩
      · rw [List.mem_singleton] at heq
        exact ⟨updateSummary (initSummary e) e,
          List.mem_append_right _ (List.mem_singleton_self _), by rw [hinit_tank, heq]⟩

theorem engineInv_foldl (es : List HarvestEntry) :
    ∀ (done : List HarvestEntry) (acc : List TankSummary),
      EngineInv done acc → EngineInv (done ++ es) (es.foldl step acc) := by
  induction es with
  | nil => intro done acc h; simpa using h
  | cons e es ih =>
    intro done acc h
    have h' := engineInv_step h e
    have := ih (done ++ [e]) (step acc e) h'
    simpa using this

theorem summariesUnsorted_inv (es : List HarvestEntry) :
    EngineInv es (summariesUnsorted es) := by
  have := engineInv_foldl es [] []
  simp only [List.nil_append] at this
  exact this ⟨by simp, by simp, by simp⟩

theorem mem_summaries_iff (es : List HarvestEntry) (s : TankSummary) :
    s ∈ summaries es ↔ s ∈ summariesUnsorted es :=
  mem_sortLe _ _ s

theorem summaries_summarizes (es : List HarvestEntry) (s : TankSummary)
    (hs : s ∈ summaries es) : SummarizesAt es s :=
  (summariesUnsorted_inv es).1 s ((mem_summaries_iff es s).1 hs)

/-! ## Partitioning sums over the per-tank summaries -/

theorem sum_map_filter_split {β : Type} [AddCommMonoid β] (f : HarvestEntry → β)
    (p : HarvestEntry → Bool) (l : List HarvestEntry) :
    ((l.filter p).map f).sum + ((l.filter (fun a => !(p a))).map f).sum = (l.map f).sum := by
  induction l with
  | nil => simp
  | cons a t ih =>
    by_cases hp : p a <;> simp [hp, ← ih, add_assoc, add_left_comm]

theorem sum_over_tanks {β : Type} [AddCommMonoid β] (f : HarvestEntry → β) :
    ∀ (L : List TankSummary) (es : List HarvestEntry),
      (L.map (fun s => s.tank)).Nodup →
      (∀ e ∈ es, ∃ s ∈ L, s.tank = e.tank) →
      (L.map (fun s => ((es.filter (fun e => e.tank == s.tank)).map f).sum)).sum
        = (es.map f).sum := by
  intro L
  induction L with
  | nil =>
    intro es _ hcov
    have : es = [] := by
      rw [List.eq_nil_iff_forall_not_mem]
      intro e he
      obtain ⟨s, hs, _⟩ := hcov e he
      exact absurd hs (List.not_mem_nil s)
    simp [this]
  | cons s L ih =>
    intro es hnd hcov
    have hhead : ∀ s' ∈ L, s'.tank ≠ s.tank := by
      intro s' hs' hcontra
      rw [List.map_cons, List.nodup_cons] at hnd
      exact hnd.1 (hcontra ▸ List.mem_map_of_mem _ hs')
    have htail_nd : (L.map (fun s => s.tank)).Nodup := by
      rw [List.map_cons, List.nodup_cons] at hnd
      exact hnd.2
    have hfilter : ∀ s' ∈ L,
        ((es.filter (fun e => !(e.tank == s.tank))).filter (fun e => e.tank == s'.tank))
          = es.filter (fun e => e.tank == s'.tank) := by
      intro s' hs'
      rw [List.filter_filter]
      refine List.filter_congr ?_
      intro e _
      by_cases he : e.tank = s'.tank
      · simp [he, hhead s' hs']
      · simp [he]
    have hcov' : ∀ e ∈ es.filter (fun e => !(e.tank == s.tank)), ∃ s' ∈ L, s'.tank = e.tank := by
      intro e he
      rw [List.mem_filter] at he
      obtain ⟨s'', hs'', htank⟩ := hcov e he.1
      rcases List.mem_cons.1 hs'' with rfl | hmem
      · exfalso
        have := he.2
        simp [← htank] at this
      · exact ⟨s'', hmem, htank⟩
    have hih := ih (es.filter (fun e => !(e.tank == s.tank))) htail_nd hcov'
    have hmapeq : (L.map (fun s' => ((es.filter (fun e => e.tank == s'.tank)).map f).sum))
        = (L.map (fun s' =>
            (((es.filter (fun e => !(e.tank == s.tank))).filter
              (fun e => e.tank == s'.tank)).map f).sum)) := by
      refine List.map_congr_left ?_
      intro s' hs'
      rw [hfilter s' hs']
    rw [List.map_cons, List.sum_cons, hmapeq, hih]
    exact sum_map_filter_split f (fun e => e.tank == s.tank) es

/-- Every field-aggregating sum over the emitted summaries equals the
corresponding sum over the entries: generic instance for a field `F`
whose per-summary value is the filtered sum of `f`. -/
theorem summaries_sum_eq {β : Type} [AddCommMonoid β] (f : HarvestEntry → β)
    (F : TankSummary → β) (es : List HarvestEntry)
    (hF : ∀ s ∈ summariesUnsorted es,
      F s = ((es.filter (fun e => e.tank == s.tank)).map f).sum) :
    ((summaries es).map F).sum = (es.map f).sum := by
  have hperm : (summaries es).map F |>.Perm ((summariesUnsorted es).map F) :=
    (sortLe_perm _ _).map F
  rw [hperm.sum_eq, List.map_congr_left hF]
  exact sum_over_tanks f _ es (summariesUnsorted_inv es).2.1 (summariesUnsorted_inv es).2.2

end Harvest

open Harvest

-- sanity check against the spec's worked example (§8):
-- two entries for one tank, weights 10 and 5, crate counts 2 and 1,
-- crate weight 1.8 → crateCount 3, totalWeight 15, absoluteWeight 9.6
example :
    (summaries
      [{ id := "a", tank := "Tank 1", count := 100, weight := 10, crateWeight := 1.8
         crateCount := 2, team := "T", timestamp := "2025-01-01T01:00", synced := false },
       { id := "b", tank := "Tank 1", count := 100, weight := 5, crateWeight := 1.8
         crateCount := 1, team := "T", timestamp := "2025-01-01T02:00", synced := false }]).map
      (fun s => (s.tank, s.entryCount, s.patluCount, s.singlesCount, s.crateCount,
        s.totalWeight, s.absoluteWeight))
      = [("Tank 1", 2, 1, 1, 3, 15, 9.6)] := by
  norm_num [summaries, summariesUnsorted, step, updateSummary, initSummary,
    resolvedCrateCount, effectiveCrateWeight, netTerm, sortSummaries, sortLe, insertLe]

/-! ## Claim C1: per-container `absoluteWeight` is the unclamped sum of
per-entry net terms -/

/-- C1: for every entry list, each summary emitted by the Aggregation
Engine carries as `absoluteWeight` the sum, over that container's entries
in input order, of `weight - entryCrateCount * effectiveCrateWeight`,
where `entryCrateCount` resolves a zero/missing `crateCount` to `1` and
`effectiveCrateWeight` resolves a zero/missing `crateWeight` to the
default crate weight; the terms are not clamped at zero, so the total may
be negative. -/
theorem C1_absoluteWeight_unclamped_sum (es : List HarvestEntry) (s : TankSummary)
    (hs : s ∈ summaries es) :
    s.absoluteWeight = ((es.filter (fun e => e.tank == s.tank)).map
      (fun e => e.weight - (resolvedCrateCount e : ℚ) * effectiveCrateWeight e)).sum :=
  (summaries_summarizes es s hs).2.2.2.2.2

/-- Witness for C1 on a concrete two-entry list whose first entry has a
negative net term: the summary's `absoluteWeight` is `(-1) + 6 = 5`. -/
theorem C1_absoluteWeight_unclamped_sum_witness :
    (⟨"T", 2, 1, 1, 3, 11, 5, 40⟩ : TankSummary).absoluteWeight =
      (([sampleSingle, samplePatlu].filter
        (fun e => e.tank == (⟨"T", 2, 1, 1, 3, 11, 5, 40⟩ : TankSummary).tank)).map
        (fun e => e.weight - (resolvedCrateCount e : ℚ) * effectiveCrateWeight e)).sum :=
  C1_absoluteWeight_unclamped_sum [sampleSingle, samplePatlu]
    ⟨"T", 2, 1, 1, 3, 11, 5, 40⟩ (by
      have hsum : summaries [sampleSingle, samplePatlu]
          = [⟨"T", 2, 1, 1, 3, 11, 5, 40⟩] := by
        norm_num [summaries, summariesUnsorted, step, updateSummary, initSummary,
          resolvedCrateCount, effectiveCrateWeight, netTerm, sortSummaries, sortLe,
          insertLe, sampleSingle, samplePatlu]
      rw [hsum]
      exact List.mem_singleton_self _)

/-! ## Claim C3: gross reconciliation -/

/-- C3: for every entry list, the sum of `totalWeight` over all summaries
emitted by the Aggregation Engine equals the sum of `weight` over all
input entries. -/
theorem C3_gross_reconciliation (es : List HarvestEntry) :
    ((summaries es).map (fun s => s.totalWeight)).sum = (es.map (fun e => e.weight)).sum :=
  summaries_sum_eq (fun e => e.weight) (fun s => s.totalWeight) es
    (fun s hs => ((summariesUnsorted_inv es).1 s hs).2.2.2.2.1)

/-! ## Claim C4: crate-count classification of a processed entry -/

/-- C4: each entry processed by the Aggregation Engine increments
`entryCount` and adds its resolved crate count to the `crateCount` sum;
`patluCount` is incremented exactly when the resolved crate count is `2`,
`singlesCount` exactly when it is `1`, and any other resolved value
increments neither classification bucket. -/
theorem C4_crate_classification (s : TankSummary) (e : HarvestEntry) :
    (updateSummary s e).entryCount = s.entryCount + 1 ∧
    (updateSummary s e).crateCount = s.crateCount + resolvedCrateCount e ∧
    (updateSummary s e).patluCount
      = s.patluCount + (if resolvedCrateCount e = 2 then 1 else 0) ∧
    (updateSummary s e).singlesCount
      = s.singlesCount + (if resolvedCrateCount e = 1 then 1 else 0) := by
  refine ⟨rfl, rfl, ?_, ?_⟩
  · by_cases h : resolvedCrateCount e = 2 <;> simp [updateSummary, h]
  · rcases eq_or_ne (resolvedCrateCount e) 2 with h2 | h2
    · simp [updateSummary, h2]
    · rcases eq_or_ne (resolvedCrateCount e) 1 with h1 | h1 <;>
        simp [updateSummary, h1, h2]

/-! ## Claim C6: grand totals and the efficiency guard -/

/-- Counterexample to C6 as stated: on a single entry of weight `-2`
(structurally allowed — the engine is a pure function and the edit/pull
paths do not validate), `totalGross = -2` is nonzero, the claimed formula
`totalAbsolute / totalGross * 100` evaluates to `150`, yet the code's
guard `totalGross > 0` makes `netEfficiency` `0`. -/
theorem C6_counterexample :
    netEfficiency [sampleNeg] = 0 ∧
    totalGross [sampleNeg] ≠ 0 ∧
    (totalAbsolute [sampleNeg] / totalGross [sampleNeg]) * 100 = 150 := by
  refine ⟨?_, ?_, ?_⟩ <;>
    norm_num [netEfficiency, totalGross, totalAbsolute, summaries, summariesUnsorted,
      step, updateSummary, initSummary, resolvedCrateCount, effectiveCrateWeight,
      netTerm, sortSummaries, sortLe, insertLe, sampleNeg]

/-- C6 as amended: the grand totals are plain sums over the emitted
summaries, and `netEfficiency` equals `totalAbsolute / totalGross * 100`
when `totalGross` is positive and is `0` when `totalGross` is not positive
(in particular when it is `0`); being a total function it never faults. -/
theorem C6_netEfficiency_guarded (es : List HarvestEntry) :
    totalAbsolute es = ((summaries es).map (fun s => s.absoluteWeight)).sum ∧
    totalGross es = ((summaries es).map (fun s => s.totalWeight)).sum ∧
    totalCrates es = ((summaries es).map (fun s => s.crateCount)).sum ∧
    (totalGross es > 0 →
      netEfficiency es = (totalAbsolute es / totalGross es) * 100) ∧
    (¬ totalGross es > 0 → netEfficiency es = 0) := by
  refine ⟨rfl, rfl, rfl, ?_, ?_⟩
  · intro h
    simp [netEfficiency, h]
  · intro h
    simp [netEfficiency, h]

/-- Witness for C6 (amended) on a concrete entry list with positive gross:
`totalGross = 10 > 0` and the efficiency equals the formula. -/
theorem C6_netEfficiency_guarded_witness :
    netEfficiency [samplePatlu]
      = (totalAbsolute [samplePatlu] / totalGross [samplePatlu]) * 100 :=
  (C6_netEfficiency_guarded [samplePatlu]).2.2.2.1 (by
    norm_num [totalGross, summaries, summariesUnsorted, step, updateSummary,
      initSummary, sortSummaries, sortLe, insertLe, samplePatlu])

/-! ## Claim C5: invalid weight input never mutates state -/

/-- C5: when the weight input parses to `NaN` (`none`), zero, or a
negative number, `handleSave` refuses to submit: no record is created,
`saveEntry` is not called, and the entry list and store are unchanged. -/
theorem C5_invalid_weight_no_mutation (settings : HarvestSettings)
    (newId now : String) (weightInput : Option ℚ) (crateCount : ℤ) (st : AppState)
    (h : weightInput = none ∨ ∃ w, weightInput = some w ∧ w ≤ 0) :
    handleSave settings newId now weightInput crateCount st = st := by
  rcases h with rfl | ⟨w, rfl, hw⟩
  · rfl
  · simp [handleSave, not_lt.2 hw]

/-- Witness for C5: a zero-parsed weight on a concrete nonempty state
leaves the state (entries, store, save-call count) untouched. -/
theorem C5_invalid_weight_no_mutation_witness :
    handleSave ⟨"T", 30, [], [], 2, "A"⟩ "x" "2025-03-02T01:00" (some 0) 2
      ⟨[sampleSingle], [sampleSingle], 1⟩ = ⟨[sampleSingle], [sampleSingle], 1⟩ :=
  C5_invalid_weight_no_mutation ⟨"T", 30, [], [], 2, "A"⟩ "x" "2025-03-02T01:00"
    (some 0) 2 ⟨[sampleSingle], [sampleSingle], 1⟩ (Or.inr ⟨0, rfl, le_refl 0⟩)

/-! ## Claim C9: `markSynced` skips absent ids and touches only `synced` -/

/-- Updating `synced` twice is the same as updating it once. -/
theorem synced_update_idem (e : HarvestEntry) :
    ({ { e with synced := true } with synced := true } : HarvestEntry)
      = { e with synced := true } := rfl

/-- C9: for every id list and store with unique ids, `markSynced` is a
total function equal to the pointwise map that sets `synced := true` on
exactly the records whose id is listed: absent ids are skipped silently
(no failure, no insertion), each present id has only its `synced` field
set, and every record whose id is not listed is left unchanged. -/
theorem C9_markSynced_frame (ids : List String) :
    ∀ store : List HarvestEntry, (store.map (fun e => e.id)).Nodup →
      markSynced ids store
        = store.map (fun e =>
            if ids.contains e.id then { e with synced := true } else e) := by
  induction ids with
  | nil =>
    intro store _
    simp [markSynced]
  | cons i ids ih =>
    intro store hnd
    rcases hfind : getEntry store i with _ | e₀
    · have hstep : markSynced (i :: ids) store = markSynced ids store := by
        simp [markSynced, List.foldl_cons, hfind]
      rw [hstep, ih store hnd]
      refine List.map_congr_left ?_
      intro e he
      have hne : ¬ e.id = i := by
        have := List.find?_eq_none.1 hfind e he
        simpa using this
      simp [List.contains_cons, hne]
    · have he₀_mem : e₀ ∈ store := List.mem_of_find?_eq_some hfind
      have he₀_id : e₀.id = i := by
        have := List.find?_some hfind
        simpa using this
      have hput : putEntry store { e₀ with synced := true }
          = store.map (fun e => if e.id == e₀.id then { e₀ with synced := true } else e) := by
        rw [putEntry, if_pos (List.any_eq_true.2 ⟨e₀, he₀_mem, by simp⟩)]
      have hstep : markSynced (i :: ids) store
          = markSynced ids
              (store.map (fun e => if e.id == e₀.id then { e₀ with synced := true } else e)) := by
        simp only [markSynced, List.foldl_cons, hfind, ← hput]
      have hids_pres : ((store.map
            (fun e => if e.id == e₀.id then { e₀ with synced := true } else e)).map
            (fun e => e.id)) = store.map (fun e => e.id) := by
        rw [List.map_map]
        refine List.map_congr_left ?_
        intro e _
        by_cases hid : e.id = e₀.id
        · simp [hid]
        · simp [hid]
      rw [hstep, ih _ (by rw [hids_pres]; exact hnd), List.map_map]
      refine List.map_congr_left ?_
      intro e he
      by_cases hid : e.id = e₀.id
      · have heq : e = e₀ :=
          List.inj_on_of_nodup_map hnd he he₀_mem hid
        subst heq
        simp [Function.comp, hid, List.contains_cons, he₀_id, synced_update_idem]
      · have hne : ¬ e.id = i := fun hcontra => hid (hcontra.trans he₀_id.symm)
        simp [Function.comp, hid, List.contains_cons, hne]

/-- Witness for C9: a store of two records with distinct ids, marked with
one present id and one absent id: the present record has only `synced`
flipped, the other record is untouched, and nothing fails or is added. -/
theorem C9_markSynced_frame_witness :
    markSynced ["a", "zzz"] [sampleSingle, samplePatlu]
      = [{ sampleSingle with synced := true }, samplePatlu] := by
  have h := C9_markSynced_frame ["a", "zzz"] [sampleSingle, samplePatlu]
    (by simp [sampleSingle, samplePatlu])
  rw [h]
  simp [sampleSingle, samplePatlu, List.contains_cons]

/-! ## Claim C10: durability-failure surfacing of `getAllEntries` -/

/-- Counterexample to C10 as stated: in the `part_004` variant, when the
database connection cannot be opened, `getAllEntries` resolves
successfully with an empty list instead of rejecting. -/
theorem C10_counterexample :
    getAllEntriesPart4 ⟨.error "Database connection failed", none⟩ = .ok [] := rfl

/-- C10 as amended: in the `db.ts` variant every failure (connection open,
request) surfaces as a rejection and success returns the sorted store; in
the `part_004` variant a request failure still rejects, but a failed
connection open is swallowed by its `try/catch` and an empty list is
returned in place of the error. -/
theorem C10_failure_semantics (msg msg2 : String) (reqErr : Option String)
    (store : List HarvestEntry) :
    getAllEntriesDbTs ⟨.error msg, reqErr⟩ = .error msg ∧
    getAllEntriesPart4 ⟨.error msg, reqErr⟩ = .ok [] ∧
    getAllEntriesDbTs ⟨.ok store, some msg2⟩ = .error msg2 ∧
    getAllEntriesPart4 ⟨.ok store, some msg2⟩ = .error msg2 ∧
    getAllEntriesDbTs ⟨.ok store, none⟩ = .ok (sortEntriesTimestampDesc store) ∧
    getAllEntriesPart4 ⟨.ok store, none⟩ = .ok store :=
  ⟨rfl, rfl, rfl, rfl, rfl, rfl⟩

/-! ## Claim C8: deleting a history date -/

/-- The date part of a timestamp is one of its prefixes, so any timestamp
whose date part equals `date` starts with `date`. -/
theorem startsWithChars_takeWhile (p : Char → Bool) (l : List Char) :
    startsWithChars l (l.takeWhile p) = true := by
  induction l with
  | nil => simp [List.takeWhile, startsWithChars]
  | cons a l ih =>
    by_cases hp : p a
    · simp [List.takeWhile, hp, startsWithChars, ih]
    · simp [List.takeWhile, hp, startsWithChars]

theorem tsStartsWith_of_dateOf {ts date : String} (h : dateOf ts = date) :
    tsStartsWith ts date = true := by
  have hdata : date.data = ts.data.takeWhile (fun c => c != 'T') := by
    rw [← h, dateOf]
  rw [tsStartsWith, hdata]
  exact startsWithChars_takeWhile _ _

/-- What `handleDeleteHistoryDate` leaves behind: exactly the entries not
starting with the date key (for stores with unique ids). -/
theorem handleDeleteHistoryDate_eq_filter (date : String) (entries : List HarvestEntry)
    (hid : (entries.map (fun e => e.id)).Nodup) :
    handleDeleteHistoryDate date entries
      = entries.filter (fun e => !(tsStartsWith e.timestamp date)) := by
  rw [handleDeleteHistoryDate]
  by_cases hempty :
      ((entries.filter (fun e => tsStartsWith e.timestamp date)).map (fun e => e.id)).isEmpty
  · rw [if_pos hempty]
    have hnil : entries.filter (fun e => tsStartsWith e.timestamp date) = [] := by
      rcases hfil : entries.filter (fun e => tsStartsWith e.timestamp date) with _ | ⟨x, xs⟩
      · exact hfil
      · rw [hfil] at hempty
        simp [List.isEmpty] at hempty
    have : ∀ e ∈ entries, ¬ (tsStartsWith e.timestamp date = true) :=
      fun e he => List.filter_eq_nil_iff.1 hnil e he
    symm
    rw [List.filter_eq_self]
    intro e he
    simp [this e he]
  · rw [if_neg hempty, deleteEntriesStore]
    refine List.filter_congr ?_
    intro e he
    by_cases hq : tsStartsWith e.timestamp date
    · have hmem : e.id ∈ (entries.filter (fun x => tsStartsWith x.timestamp date)).map
          (fun x => x.id) :=
        List.mem_map_of_mem _ (List.mem_filter.2 ⟨he, hq⟩)
      have hc : ((entries.filter (fun x => tsStartsWith x.timestamp date)).map
          (fun x => x.id)).contains e.id = true :=
        List.elem_eq_true_of_mem hmem
      rw [hq, hc]
    · have hnc : e.id ∉ (entries.filter (fun x => tsStartsWith x.timestamp date)).map
          (fun x => x.id) := by
        intro hmem
        rw [List.mem_map] at hmem
        obtain ⟨e', he', hide⟩ := hmem
        rw [List.mem_filter] at he'
        have : e' = e := List.inj_on_of_nodup_map hid he'.1 he hide
        rw [this] at he'
        exact hq he'.2
      simp only [Bool.not_eq_true] at hq
      simp [hq, hnc]

/-- Every bucket key produced by the date grouping is the date part of
some grouped entry. -/
theorem foldl_addToDateGroup_keys :
    ∀ (l : List HarvestEntry) (acc : List (String × List HarvestEntry)),
      ∀ p ∈ l.foldl addToDateGroup acc,
        (∃ q ∈ acc, p.1 = q.1) ∨ ∃ e ∈ l, p.1 = dateOf e.timestamp := by
  intro l
  induction l with
  | nil =>
    intro acc p hp
    exact Or.inl ⟨p, hp, rfl⟩
  | cons e l ih =>
    intro acc p hp
    rw [List.foldl_cons] at hp
    rcases ih (addToDateGroup acc e) p hp with ⟨q, hq, hkey⟩ | ⟨e', he', hkey⟩
    · rw [addToDateGroup] at hq
      by_cases hany : acc.any (fun r => r.1 == dateOf e.timestamp)
      · rw [if_pos hany] at hq
        rw [List.mem_map] at hq
        obtain ⟨r, hr, rfl⟩ := hq
        by_cases hrk : r.1 = dateOf e.timestamp
        · exact Or.inr ⟨e, List.mem_cons_self e l, by simpa [hrk] using hkey⟩
        · refine Or.inl ⟨r, hr, ?_⟩
          simpa [hrk] using hkey
      · rw [if_neg hany] at hq
        rcases List.mem_append.1 hq with hmem | heq
        · exact Or.inl ⟨q, hmem, hkey⟩
        · rw [List.mem_singleton] at heq
          refine Or.inr ⟨e, List.mem_cons_self e l, ?_⟩
          rw [hkey, heq]
    · exact Or.inr ⟨e', List.mem_cons_of_mem e he', hkey⟩

theorem groupedByDate_keys (l : List HarvestEntry) :
    ∀ p ∈ groupedByDate l, ∃ e ∈ l, p.1 = dateOf e.timestamp := by
  intro p hp
  rw [groupedByDate, mem_sortLe] at hp
  rcases foldl_addToDateGroup_keys l [] p hp with ⟨q, hq, _⟩ | h
  · exact absurd hq (List.not_mem_nil q)
  · exact h

/-- Counterexample to C8 as stated: deleting the date key `"2025-03"`
removes `sampleSingle` (timestamp `"2025-03-01T08:00"` starts with it)
even though its date part `"2025-03-01"` is not equal to the key, so the
deletion is not "exactly the entries whose date part equals the date". -/
theorem C8_counterexample :
    handleDeleteHistoryDate "2025-03" [sampleSingle] = [] ∧
    dateOf sampleSingle.timestamp ≠ "2025-03" := by
  constructor
  · norm_num [handleDeleteHistoryDate, deleteEntriesStore, tsStartsWith,
      startsWithChars, sampleSingle, dateOf, List.filter, List.contains]
  · decide

/-- C8 as amended: deleting a date key removes exactly the entries whose
timestamp starts with that key; whenever starting-with the key coincides
with having date part equal to the key (as it does for well-formed
`YYYY-MM-DDT…` timestamps and keys produced by the history grouping),
this is exactly the entries whose date part equals the date, and
regrouping the remaining entries by date yields no bucket for that date. -/
theorem C8_delete_date (date : String) (entries : List HarvestEntry)
    (hid : (entries.map (fun e => e.id)).Nodup)
    (hpref : ∀ e ∈ entries,
      tsStartsWith e.timestamp date = (dateOf e.timestamp == date)) :
    handleDeleteHistoryDate date entries
      = entries.filter (fun e => !(dateOf e.timestamp == date)) ∧
    ∀ p ∈ groupedByDate (handleDeleteHistoryDate date entries), p.1 ≠ date := by
  have hmain : handleDeleteHistoryDate date entries
      = entries.filter (fun e => !(dateOf e.timestamp == date)) := by
    rw [handleDeleteHistoryDate_eq_filter date entries hid]
    exact List.filter_congr (fun e he => by rw [hpref e he])
  refine ⟨hmain, ?_⟩
  intro p hp
  obtain ⟨e, he, hkey⟩ := groupedByDate_keys _ p hp
  rw [hmain, List.mem_filter] at he
  intro hcontra
  have hd : dateOf e.timestamp = date := hkey.symm.trans hcontra
  have := he.2
  rw [hd] at this
  simp at this

/-- Witness for C8 (amended) on a concrete store: deleting the exact date
key `"2025-03-01"` removes both matching entries and none other. -/
theorem C8_delete_date_witness :
    handleDeleteHistoryDate "2025-03-01" [sampleSingle, samplePatlu]
      = [sampleSingle, samplePatlu].filter
          (fun e => !(dateOf e.timestamp == "2025-03-01")) :=
  (C8_delete_date "2025-03-01" [sampleSingle, samplePatlu]
    (by decide) (by decide)).1

/-! ## Claim C2: PDF export versus the Aggregation Engine -/

/-- Mapping commutes with the stable sort when the comparator factors
through the mapped function. -/
theorem map_insertLe {α β : Type} (f : α → β) (le : α → α → Bool) (le' : β → β → Bool)
    (hle : ∀ a b, le a b = le' (f a) (f b)) (a : α) :
    ∀ l : List α, (insertLe le a l).map f = insertLe le' (f a) (l.map f) := by
  intro l
  induction l with
  | nil => simp [insertLe]
  | cons b bs ih =>
    simp only [insertLe, List.map_cons, ← hle a b]
    by_cases hb : le a b
    · simp [hb]
    · simp [hb, ih]

theorem map_sortLe {α β : Type} (f : α → β) (le : α → α → Bool) (le' : β → β → Bool)
    (hle : ∀ a b, le a b = le' (f a) (f b)) :
    ∀ l : List α, (sortLe le l).map f = sortLe le' (l.map f) := by
  intro l
  induction l with
  | nil => simp [sortLe]
  | cons a t ih =>
    simp only [sortLe, List.foldr_cons, List.map_cons]
    rw [show t.foldr (insertLe le) [] = sortLe le t from rfl,
      map_insertLe f le le' hle, ih]
    rfl

/-- Under the hypotheses that the resolved crate count is `1` or `2` and
the net term is nonnegative, the PDF's per-entry mutation agrees with the
engine's on every field but `shrimpCount`. -/
theorem coreFields_update_eq {s s' : TankSummary} {e : HarvestEntry}
    (hcs : coreFields s = coreFields s')
    (h1 : resolvedCrateCount e = 1 ∨ resolvedCrateCount e = 2)
    (h2 : 0 ≤ netTerm e) :
    coreFields (pdfUpdateSummary s e) = coreFields (updateSummary s' e) := by
  obtain ⟨ht, he, hp, hs, hc, hw, ha⟩ : s.tank = s'.tank ∧ s.entryCount = s'.entryCount ∧
      s.patluCount = s'.patluCount ∧ s.singlesCount = s'.singlesCount ∧
      s.crateCount = s'.crateCount ∧ s.totalWeight = s'.totalWeight ∧
      s.absoluteWeight = s'.absoluteWeight := by
    simpa [coreFields, Prod.ext_iff] using hcs
  have hmax : max 0 (netTerm e) = netTerm e := max_eq_right h2
  rcases h1 with h1 | h1 <;>
    simp [coreFields, pdfUpdateSummary, updateSummary, h1, ht, he, hp, hs, hc, hw, ha, hmax]

/-- Pairwise congruence of maps under a common projection. -/
theorem map_comp_congr {α β : Type} (F : α → β) (g₁ g₂ : α → α)
    (h : ∀ a b, F a = F b → F (g₁ a) = F (g₂ b)) :
    ∀ l₁ l₂ : List α, l₁.map F = l₂.map F →
      (l₁.map g₁).map F = (l₂.map g₂).map F := by
  intro l₁
  induction l₁ with
  | nil =>
    intro l₂ h2
    cases l₂ with
    | nil => rfl
    | cons b u => simp at h2
  | cons a t ih =>
    intro l₂ h2
    cases l₂ with
    | nil => simp at h2
    | cons b u =>
      simp only [List.map_cons, List.cons.injEq] at h2 ⊢
      exact ⟨h a b h2.1, ih u h2.2⟩

/-- One step of the two aggregations stays in the core-field relation. -/
theorem pdf_core_step {e : HarvestEntry}
    (h1 : resolvedCrateCount e = 1 ∨ resolvedCrateCount e = 2)
    (h2 : 0 ≤ netTerm e) (accP acc : List TankSummary)
    (hacc : accP.map coreFields = acc.map coreFields) :
    (pdfStep accP e).map coreFields = (step acc e).map coreFields := by
  have htanks : accP.map (fun s => s.tank) = acc.map (fun s => s.tank) := by
    have := congrArg (List.map (fun t : String × ℕ × ℕ × ℕ × ℤ × ℚ × ℚ => t.1)) hacc
    rw [List.map_map, List.map_map] at this
    exact this
  have hlift : ∀ L : List TankSummary, (L.any fun s => s.tank == e.tank)
      = ((L.map fun s => s.tank).any fun t => t == e.tank) := by
    intro L
    induction L with
    | nil => rfl
    | cons a t ih => simp [List.any_cons, ih]
  have hany : (accP.any (fun s => s.tank == e.tank))
      = (acc.any (fun s => s.tank == e.tank)) := by
    rw [hlift, hlift, htanks]
  by_cases h : acc.any (fun s => s.tank == e.tank)
  · rw [pdfStep, if_pos (hany.trans h), step, if_pos h]
    refine map_comp_congr coreFields _ _ ?_ accP acc hacc
    intro a b hab
    have htank : a.tank = b.tank := congrArg (fun t => t.1) hab
    by_cases htb : b.tank = e.tank
    · rw [if_pos (by simp [htank, htb]), if_pos (by simp [htb])]
      exact coreFields_update_eq hab h1 h2
    · rw [if_neg (by simp [htank, htb]), if_neg (by simp [htb])]
      exact hab
  · rw [pdfStep, if_neg (by rw [hany]; exact h), step, if_neg h]
    rw [List.map_append, List.map_append, hacc]
    simp only [List.map_cons, List.map_nil]
    rw [coreFields_update_eq rfl h1 h2]

/-- The whole folds stay in the core-field relation. -/
theorem pdf_core_fold :
    ∀ (es : List HarvestEntry),
      (∀ e ∈ es, resolvedCrateCount e = 1 ∨ resolvedCrateCount e = 2) →
      (∀ e ∈ es, 0 ≤ netTerm e) →
      ∀ (accP acc : List TankSummary), accP.map coreFields = acc.map coreFields →
        (es.foldl pdfStep accP).map coreFields = (es.foldl step acc).map coreFields := by
  intro es
  induction es with
  | nil => intro _ _ accP acc hacc; simpa using hacc
  | cons e es ih =>
    intro h1 h2 accP acc hacc
    simp only [List.foldl_cons]
    exact ih (fun x hx => h1 x (List.mem_cons_of_mem e hx))
      (fun x hx => h2 x (List.mem_cons_of_mem e hx)) _ _
      (pdf_core_step (h1 e (List.mem_cons_self e es)) (h2 e (List.mem_cons_self e es))
        accP acc hacc)

/-- Counterexample to C2 as stated: on a single entry of weight `1` with
one crate of tare `2`, the engine's net total is `-1` (unclamped) while
the PDF export prints a clamped net total of `0`: the export recomputes
its own summaries and does not equal the engine's output. -/
theorem C2_counterexample :
    pdfTotalNet [sampleSingle] ≠ totalAbsolute [sampleSingle] := by
  norm_num [pdfTotalNet, totalAbsolute, pdfSummaries, summaries,
    pdfSummariesUnsorted, summariesUnsorted, pdfStep, step, pdfUpdateSummary,
    updateSummary, initSummary, resolvedCrateCount, effectiveCrateWeight, netTerm,
    sortSummaries, sortLe, insertLe, sampleSingle]

/-- C2 as amended: the PDF export recomputes its own per-tank summaries;
whenever every entry's resolved crate count is `1` or `2` and every
entry's net term is nonnegative, they and the derived grand totals
(gross, net, revenue, unit count) agree with the Aggregation Engine's,
and the printed efficiency agrees additionally when the total gross is
positive (the PDF divides unguarded while the engine returns `0` for a
non-positive gross, so they can differ on a negative-gross list even
under the first two conditions).  The export clamps each per-entry net
at zero and counts every non-2-crate entry as singles, so outside these
hypotheses its printed values can differ. -/
theorem C2_pdf_matches_engine (prices : String → Option ℚ) (es : List HarvestEntry)
    (h1 : ∀ e ∈ es, resolvedCrateCount e = 1 ∨ resolvedCrateCount e = 2)
    (h2 : ∀ e ∈ es, 0 ≤ netTerm e) :
    (pdfSummaries es).map coreFields = (summaries es).map coreFields ∧
    pdfTotalGross es = totalGross es ∧
    pdfTotalNet es = totalAbsolute es ∧
    pdfTotalRevenue prices es = totalRevenue prices es ∧
    pdfUnitCount es = engineUnitCount es ∧
    (totalGross es > 0 → pdfEfficiency es = netEfficiency es) := by
  have hcore : (pdfSummaries es).map coreFields = (summaries es).map coreFields := by
    rw [pdfSummaries, summaries, sortSummaries, sortSummaries,
      map_sortLe coreFields (fun a b => strLe a.tank b.tank)
        (fun a b => strLe a.1 b.1) (fun a b => rfl),
      map_sortLe coreFields (fun a b => strLe a.tank b.tank)
        (fun a b => strLe a.1 b.1) (fun a b => rfl),
      pdfSummariesUnsorted, summariesUnsorted, pdf_core_fold es h1 h2 [] [] rfl]
  have hgross : pdfTotalGross es = totalGross es := by
    calc ((pdfSummaries es).map (fun s => s.totalWeight)).sum
        = (((pdfSummaries es).map coreFields).map (fun t => t.2.2.2.2.2.1)).sum := by
          rw [List.map_map]
          exact congrArg List.sum (List.map_congr_left fun s _ => rfl)
      _ = (((summaries es).map coreFields).map (fun t => t.2.2.2.2.2.1)).sum := by
          rw [hcore]
      _ = ((summaries es).map (fun s => s.totalWeight)).sum := by
          rw [List.map_map]
          exact congrArg List.sum (List.map_congr_left fun s _ => rfl)
  have hnet : pdfTotalNet es = totalAbsolute es := by
    calc ((pdfSummaries es).map (fun s => s.absoluteWeight)).sum
        = (((pdfSummaries es).map coreFields).map (fun t => t.2.2.2.2.2.2)).sum := by
          rw [List.map_map]
          exact congrArg List.sum (List.map_congr_left fun s _ => rfl)
      _ = (((summaries es).map coreFields).map (fun t => t.2.2.2.2.2.2)).sum := by
          rw [hcore]
      _ = ((summaries es).map (fun s => s.absoluteWeight)).sum := by
          rw [List.map_map]
          exact congrArg List.sum (List.map_congr_left fun s _ => rfl)
  have hrev : pdfTotalRevenue prices es = totalRevenue prices es := by
    calc ((pdfSummaries es).map (fun s => s.absoluteWeight * parsedPrice prices s.tank)).sum
        = (((pdfSummaries es).map coreFields).map
            (fun t => t.2.2.2.2.2.2 * parsedPrice prices t.1)).sum := by
          rw [List.map_map]
          exact congrArg List.sum (List.map_congr_left fun s _ => rfl)
      _ = (((summaries es).map coreFields).map
            (fun t => t.2.2.2.2.2.2 * parsedPrice prices t.1)).sum := by
          rw [hcore]
      _ = ((summaries es).map (fun s => s.absoluteWeight * parsedPrice prices s.tank)).sum := by
          rw [List.map_map]
          exact congrArg List.sum (List.map_congr_left fun s _ => rfl)
  have hunit : pdfUnitCount es = engineUnitCount es := by
    calc ((pdfSummaries es).map (fun s => s.entryCount)).sum
        = (((pdfSummaries es).map coreFields).map (fun t => t.2.1)).sum := by
          rw [List.map_map]
          exact congrArg List.sum (List.map_congr_left fun s _ => rfl)
      _ = (((summaries es).map coreFields).map (fun t => t.2.1)).sum := by
          rw [hcore]
      _ = ((summaries es).map (fun s => s.entryCount)).sum := by
          rw [List.map_map]
          exact congrArg List.sum (List.map_congr_left fun s _ => rfl)
  refine ⟨hcore, hgross, hnet, hrev, hunit, ?_⟩
  intro hpos
  rw [pdfEfficiency, hnet, hgross, netEfficiency, if_pos hpos]

/-- Witness for C2 (amended): on a list of one well-formed two-crate entry
the PDF's printed net equals the engine's. -/
theorem C2_pdf_matches_engine_witness :
    pdfTotalNet [samplePatlu] = totalAbsolute [samplePatlu] :=
  (C2_pdf_matches_engine (fun _ => none) [samplePatlu]
    (by
      intro e he
      rw [List.mem_singleton] at he
      subst he
      right
      decide)
    (by
      intro e he
      rw [List.mem_singleton] at he
      subst he
      norm_num [netTerm, samplePatlu, resolvedCrateCount, effectiveCrateWeight])).2.2.1

/-! ## Claim C7: serial numbering in the log and history views -/

theorem mem_insertLe {α : Type} (le : α → α → Bool) (a x : α) (l : List α) :
    x ∈ insertLe le a l ↔ x = a ∨ x ∈ l := by
  rw [(insertLe_perm le a l).mem_iff, List.mem_cons]

theorem insertLe_pairwise {α : Type} (le : α → α → Bool)
    (htot : ∀ a b, le a b || le b a)
    (htrans : ∀ a b c, le a b = true → le b c = true → le a c = true)
    (a : α) (l : List α) (h : l.Pairwise (fun x y => le x y = true)) :
    (insertLe le a l).Pairwise (fun x y => le x y = true) := by
  induction l with
  | nil => simp [insertLe]
  | cons b bs ih =>
    rw [List.pairwise_cons] at h
    simp only [insertLe]
    by_cases hb : le a b
    · rw [if_pos hb]
      rw [List.pairwise_cons]
      refine ⟨?_, List.Pairwise.cons h.1 h.2⟩
      intro x hx
      rcases List.mem_cons.1 hx with rfl | hx
      · exact hb
      · exact htrans a b x hb (h.1 x hx)
    · rw [if_neg hb]
      have hba : le b a := by
        rcases Bool.or_eq_true_iff.1 (htot a b) with h' | h'
        · exact absurd h' hb
        · exact h'
      rw [List.pairwise_cons]
      refine ⟨?_, ih h.2⟩
      intro x hx
      rcases (mem_insertLe le a x bs).1 hx with rfl | hx
      · exact hba
      · exact h.1 x hx

theorem sortLe_pairwise {α : Type} (le : α → α → Bool)
    (htot : ∀ a b, le a b || le b a)
    (htrans : ∀ a b c, le a b = true → le b c = true → le a c = true)
    (l : List α) : (sortLe le l).Pairwise (fun x y => le x y = true) := by
  induction l with
  | nil => simp [sortLe]
  | cons a t ih => exact insertLe_pairwise le htot htrans a (sortLe le t) ih

/-- Two lists that are permutations of each other and both sorted under an
asymmetric relation are equal. -/
theorem pairwise_asymm_perm_eq {α : Type} (R : α → α → Prop)
    (hasym : ∀ a b, R a b → R b a → False) :
    ∀ l₁ l₂ : List α, l₁.Perm l₂ → l₁.Pairwise R → l₂.Pairwise R → l₁ = l₂ := by
  intro l₁
  induction l₁ with
  | nil =>
    intro l₂ hperm _ _
    exact hperm.nil_eq
  | cons a t ih =>
    intro l₂ hperm h₁ h₂
    cases l₂ with
    | nil => exact absurd hperm.eq_nil (List.cons_ne_nil a t)
    | cons b u =>
      rw [List.pairwise_cons] at h₁ h₂
      have hab : a = b := by
        by_contra hne
        have ha2 : a ∈ b :: u := hperm.mem_iff.1 (List.mem_cons_self a t)
        have hb1 : b ∈ a :: t := hperm.mem_iff.2 (List.mem_cons_self b u)
        have ha2' : a ∈ u := by
          rcases List.mem_cons.1 ha2 with h' | h'
          · exact absurd h' hne
          · exact h'
        have hb1' : b ∈ t := by
          rcases List.mem_cons.1 hb1 with h' | h'
          · exact absurd h'.symm hne
          · exact h'
        exact hasym a b (h₁.1 b hb1') (h₂.1 a ha2')
      subst hab
      have : t.Perm u := hperm.cons_inv
      rw [ih u this h₁.2 h₂.2]

theorem sortGroupDesc_perm (key : String → ℤ) (g : List HarvestEntry) :
    (sortGroupDesc key g).Perm g := sortLe_perm _ g

theorem sortGroupAsc_perm (key : String → ℤ) (g : List HarvestEntry) :
    (sortGroupAsc key g).Perm g := sortLe_perm _ g

theorem sortGroupDesc_pairwise (key : String → ℤ) (g : List HarvestEntry) :
    (sortGroupDesc key g).Pairwise (fun a b => key b.timestamp ≤ key a.timestamp) := by
  have h := sortLe_pairwise (fun a b : HarvestEntry => key b.timestamp ≤ key a.timestamp)
    (fun a b => by
      rcases le_total (key b.timestamp) (key a.timestamp) with h | h <;> simp [h])
    (fun a b c h1 h2 => by
      simp only [decide_eq_true_eq] at *
      exact le_trans h2 h1) g
  exact h.imp (fun h => by simpa using h)

theorem sortGroupAsc_pairwise (key : String → ℤ) (g : List HarvestEntry) :
    (sortGroupAsc key g).Pairwise (fun a b => key a.timestamp ≤ key b.timestamp) := by
  have h := sortLe_pairwise (fun a b : HarvestEntry => key a.timestamp ≤ key b.timestamp)
    (fun a b => by
      rcases le_total (key a.timestamp) (key b.timestamp) with h | h <;> simp [h])
    (fun a b c h1 h2 => by
      simp only [decide_eq_true_eq] at *
      exact le_trans h1 h2) g
  exact h.imp (fun h => by simpa using h)

/-- A list that is a permutation of `g` inherits pairwise-distinct keys. -/
theorem keys_nodup_of_perm {key : String → ℤ} {g l : List HarvestEntry}
    (hperm : l.Perm g) (hkey : (g.map (fun e => key e.timestamp)).Nodup) :
    l.Pairwise (fun a b => key a.timestamp ≠ key b.timestamp) := by
  have : (l.map (fun e => key e.timestamp)).Nodup :=
    ((hperm.map (fun e => key e.timestamp)).nodup_iff).2 hkey
  rw [List.Nodup, List.pairwise_map] at this
  exact this

theorem sortGroupDesc_pairwise_strict (key : String → ℤ) (g : List HarvestEntry)
    (hkey : (g.map (fun e => key e.timestamp)).Nodup) :
    (sortGroupDesc key g).Pairwise (fun a b => key b.timestamp < key a.timestamp) := by
  have h1 := sortGroupDesc_pairwise key g
  have h2 := keys_nodup_of_perm (sortGroupDesc_perm key g) hkey
  exact (h1.and h2).imp (fun h => lt_of_le_of_ne h.1 (Ne.symm h.2))

theorem sortGroupAsc_pairwise_strict (key : String → ℤ) (g : List HarvestEntry)
    (hkey : (g.map (fun e => key e.timestamp)).Nodup) :
    (sortGroupAsc key g).Pairwise (fun a b => key a.timestamp < key b.timestamp) := by
  have h1 := sortGroupAsc_pairwise key g
  have h2 := keys_nodup_of_perm (sortGroupAsc_perm key g) hkey
  exact (h1.and h2).imp (fun h => lt_of_le_of_ne h.1 h.2)

/-- With pairwise-distinct timestamps, the log view's descending sort is
exactly the reverse of the history view's ascending sort. -/
theorem sortGroupDesc_eq_reverse (key : String → ℤ) (g : List HarvestEntry)
    (hkey : (g.map (fun e => key e.timestamp)).Nodup) :
    sortGroupDesc key g = (sortGroupAsc key g).reverse := by
  refine pairwise_asymm_perm_eq (fun a b => key b.timestamp < key a.timestamp)
    (fun a b h1 h2 => absurd h1 (not_lt.2 (le_of_lt h2))) _ _ ?_ ?_ ?_
  · exact (sortGroupDesc_perm key g).trans
      (((sortGroupAsc key g).reverse_perm).trans (sortGroupAsc_perm key g)).symm
  · exact sortGroupDesc_pairwise_strict key g hkey
  · rw [List.pairwise_reverse]
    exact sortGroupAsc_pairwise_strict key g hkey


theorem lookup_cons {γ : Type} [BEq γ] (k : γ) (v : ℕ) (t : List (γ × ℕ)) (x : γ) :
    ((k, v) :: t).lookup x = if x == k then some v else t.lookup x := by
  cases hx : x == k <;> simp [List.lookup, hx]

theorem lookup_append {γ : Type} [BEq γ] (l₁ l₂ : List (γ × ℕ)) (x : γ) :
    (l₁ ++ l₂).lookup x
      = match l₁.lookup x with
        | some v => some v
        | none => l₂.lookup x := by
  induction l₁ with
  | nil => rfl
  | cons p t ih =>
    rcases p with ⟨k, v⟩
    rw [List.cons_append, lookup_cons, lookup_cons]
    cases hx : x == k
    · simpa using ih
    · simp

theorem lookup_eq_none_of_not_mem {γ : Type} [BEq γ] [LawfulBEq γ]
    (l : List (γ × ℕ)) (x : γ) (h : x ∉ l.map Prod.fst) : l.lookup x = none := by
  induction l with
  | nil => rfl
  | cons p t ih =>
    rcases p with ⟨k, v⟩
    rw [lookup_cons]
    rw [List.map_cons, List.mem_cons] at h
    push_neg at h
    rw [if_neg (by simpa using h.1)]
    exact ih h.2

/-- Looking up in a reversed association list with pairwise-distinct keys
gives the same answer. -/
theorem lookup_reverse {γ : Type} [BEq γ] [LawfulBEq γ] :
    ∀ (l : List (γ × ℕ)), (l.map Prod.fst).Nodup →
      ∀ x : γ, l.reverse.lookup x = l.lookup x := by
  intro l
  induction l with
  | nil => intro _ x; rfl
  | cons p t ih =>
    intro hnd x
    rcases p with ⟨k, v⟩
    rw [List.map_cons, List.nodup_cons] at hnd
    rw [List.reverse_cons, lookup_append, ih hnd.2 x]
    rcases ht : t.lookup x with _ | v'
    · simp only [ht]
      rw [lookup_cons, lookup_cons, ht]
      rfl
    · have hxk : (x == k) = false := by
        cases hx : x == k
        · rfl
        · have hxk' : x = k := by simpa using hx
          rw [lookup_eq_none_of_not_mem t x (by rw [hxk']; exact hnd.1)] at ht
          exact absurd ht (by simp)
      simp only [ht]
      rw [lookup_cons, if_neg (by simp [hxk]), ht]

/-- Over a single-container group, the history view's counter fold is
enumeration from the tank's starting counter value. -/
theorem histSerialFold_const (t : String) :
    ∀ (l : List HarvestEntry) (cnt : String → ℕ), (∀ e ∈ l, e.tank = t) →
      histSerialFold l cnt
        = (List.enumFrom (cnt t) l).map (fun p => (p.2.id, p.1 + 1)) := by
  intro l
  induction l with
  | nil => intro cnt _; rfl
  | cons e rest ih =>
    intro cnt hall
    have he : e.tank = t := hall e (List.mem_cons_self e rest)
    rw [histSerialFold,
      ih (fun u => if u == e.tank then cnt e.tank + 1 else cnt u)
        (fun x hx => hall x (List.mem_cons_of_mem e hx)),
      List.enumFrom, List.map_cons]
    simp [he]

/-- The history view's serial map over a single-container group, in closed
form: 1-based enumeration of the ascending-sorted group. -/
theorem historySerialAssoc_enum (key : String → ℤ) (t : String)
    (g : List HarvestEntry) (ht : ∀ e ∈ g, e.tank = t) :
    historySerialAssoc key g
      = (sortGroupAsc key g).enum.map (fun p => (p.2.id, p.1 + 1)) := by
  rw [historySerialAssoc,
    histSerialFold_const t (sortGroupAsc key g) (fun _ => 0)
      (fun e he => ht e ((sortGroupAsc_perm key g).mem_iff.1 he))]
  rfl

/-- With pairwise-distinct timestamps the log view's id-to-serial list is
the reverse of the history view's closed form. -/
theorem logSerialAssoc_eq_reverse (key : String → ℤ) (g : List HarvestEntry)
    (hkey : (g.map (fun e => key e.timestamp)).Nodup) :
    logSerialAssoc key g
      = ((sortGroupAsc key g).enum.map (fun p => (p.2.id, p.1 + 1))).reverse := by
  rw [logSerialAssoc, sortGroupDesc_eq_reverse key g hkey]
  have hlen : (sortGroupAsc key g).length = g.length := (sortGroupAsc_perm key g).length_eq
  apply List.ext_getElem
  · simp
  · intro i h1 h2
    simp only [List.getElem_map, List.getElem_enum, List.getElem_reverse,
      List.length_map, List.enum_length, List.length_reverse] at h1 h2 ⊢
    refine congrArg₂ Prod.mk rfl ?_
    omega

/-- Counterexample to C7 as stated: two entries of one tank with the same
timestamp (so any `getTime`-style key gives them equal keys).  The log
view's stable descending sort keeps input order and assigns serials
`2, 1`, while the history view's stable ascending sort also keeps input
order and assigns serials `1, 2`: the two serials disagree for id `"a"`. -/
theorem C7_counterexample :
    (logSerialAssoc sampleKey [sampleDupA, sampleDupB]).lookup "a"
      ≠ (historySerialAssoc sampleKey [sampleDupA, sampleDupB]).lookup "a" := by
  decide

/-- C7 as amended: for a fixed single-container group with unique ids and
pairwise-distinct timestamp keys, the log view's serial
`(countInGroup - displayIndex)` over the descending-sorted group assigns
each record the same number as sorting ascending and numbering `1..N` in
that order; and both numberings are unchanged under any permutation of
the group, i.e. stable regardless of the list's current display order. -/
theorem C7_serial_numbering (key : String → ℤ) (t : String) (g : List HarvestEntry)
    (ht : ∀ e ∈ g, e.tank = t)
    (hid : (g.map (fun e => e.id)).Nodup)
    (hkey : (g.map (fun e => key e.timestamp)).Nodup) :
    (∀ i : String,
      (logSerialAssoc key g).lookup i = (historySerialAssoc key g).lookup i) ∧
    (∀ g' : List HarvestEntry, g'.Perm g →
      logSerialAssoc key g' = logSerialAssoc key g ∧
      historySerialAssoc key g' = historySerialAssoc key g) := by
  refine ⟨?_, ?_⟩
  · have h1 : ((sortGroupAsc key g).enum.map (fun p => (p.2.id, p.1 + 1))).map Prod.fst
        = (sortGroupAsc key g).map (fun e => e.id) := by
      rw [List.map_map,
        show (Prod.fst ∘ fun p : ℕ × HarvestEntry => (p.2.id, p.1 + 1))
          = ((fun e : HarvestEntry => e.id) ∘ Prod.snd) from rfl,
        ← List.map_map, List.enum_map_snd]
    have hkeys_assoc :
        (((sortGroupAsc key g).enum.map (fun p => (p.2.id, p.1 + 1))).map Prod.fst).Nodup := by
      rw [h1]
      exact ((sortGroupAsc_perm key g).map _).nodup_iff.2 hid
    intro i
    rw [logSerialAssoc_eq_reverse key g hkey, historySerialAssoc_enum key t g ht]
    exact lookup_reverse _ hkeys_assoc i
  · intro g' hperm
    have hkey' : (g'.map (fun e => key e.timestamp)).Nodup :=
      ((hperm.map _).nodup_iff).2 hkey
    have hdesc : sortGroupDesc key g' = sortGroupDesc key g :=
      pairwise_asymm_perm_eq (fun a b => key b.timestamp < key a.timestamp)
        (fun a b hx hy => absurd hx (not_lt.2 (le_of_lt hy))) _ _
        ((sortGroupDesc_perm key g').trans (hperm.trans (sortGroupDesc_perm key g).symm))
        (sortGroupDesc_pairwise_strict key g' hkey')
        (sortGroupDesc_pairwise_strict key g hkey)
    have hasc : sortGroupAsc key g' = sortGroupAsc key g :=
      pairwise_asymm_perm_eq (fun a b => key a.timestamp < key b.timestamp)
        (fun a b hx hy => absurd hx (not_lt.2 (le_of_lt hy))) _ _
        ((sortGroupAsc_perm key g').trans (hperm.trans (sortGroupAsc_perm key g).symm))
        (sortGroupAsc_pairwise_strict key g' hkey')
        (sortGroupAsc_pairwise_strict key g hkey)
    have hlen : g'.length = g.length := hperm.length_eq
    constructor
    · rw [logSerialAssoc, logSerialAssoc, hdesc, hlen]
    · rw [historySerialAssoc, historySerialAssoc, hasc]

/-- Witness for C7 (amended) on a concrete two-entry group with distinct
timestamps: the log view's serial for id `"a"` equals the history view's. -/
theorem C7_serial_numbering_witness :
    (logSerialAssoc sampleKey [sampleSingle, samplePatlu]).lookup "a"
      = (historySerialAssoc sampleKey [sampleSingle, samplePatlu]).lookup "a" :=
  (C7_serial_numbering sampleKey "T" [sampleSingle, samplePatlu]
    (by decide) (by decide) (by decide)).1 "a"
